import Mathlib

/-!
Verification development for the website-to-PDF exporter
(`execution/export_to_pdf.py`): URL discovery (crawl frontier),
link normalization, content-block extraction/classification, and
multi-page assembly with a table of contents.

The Python functions are shallowly embedded as executable Lean
definitions.  Python strings are modelled as Lean `String`
(operated on through their underlying `List Char`), the mutable
`OrderedDict` of discovered URLs as an insertion-ordered
association list, and the crawl loop as a fuel-indexed recursion
that also emits a trace of observable events (dequeue, fetch
outcome, politeness sleep).  External-library calls
(`urllib.parse.urljoin`, `urlparse`, BeautifulSoup tree
accessors) are modelled faithfully for the input space the
crawler exercises, as documented at each definition.
-/

/-! ### Python string primitives -/

/-- Model of Python `str.strip()` (whitespace on both ends) on character lists. -/
def stripChars (l : List Char) : List Char :=
  ((l.dropWhile Char.isWhitespace).reverse.dropWhile Char.isWhitespace).reverse

/-- Model of Python `str.strip()`. -/
def pyStrip (s : String) : String :=
  (stripChars s.data).asString

/-- Model of Python `str.lower()` (ASCII range, which is all the crawler compares). -/
def lowerStr (s : String) : String :=
  (s.data.map Char.toLower).asString

/-- Model of Python `s.startswith(pat)`. -/
def strStarts (s pat : String) : Bool :=
  pat.data.isPrefixOf s.data

/-- Model of Python `pat in s` (substring containment). -/
def strContains (s pat : String) : Bool :=
  s.data.tails.any (fun t => pat.data.isPrefixOf t)

/-- Model of Python `pat.endswith`-style suffix test, used to state the
spec's "path ends in a denylisted extension" reading. -/
def strEnds (s pat : String) : Bool :=
  pat.data.isSuffixOf s.data

/-- Model of Python `s[:n]`. -/
def strTake (s : String) (n : Nat) : String :=
  (s.data.take n).asString

/-- Characters of `l` before the first occurrence of `c` (Python `s.split(c)[0]`). -/
def takeUntilChar (c : Char) (l : List Char) : List Char :=
  l.takeWhile (fun x => x ≠ c)

/-- Model of Python `s.split(c)` on character lists. -/
def splitChar (c : Char) : List Char → List (List Char)
  | [] => [[]]
  | x :: xs =>
    match splitChar c xs with
    | [] => []
    | h :: t => if x = c then [] :: h :: t else (x :: h) :: t

/-- Characters of `l` before the first occurrence of the substring `pat`
(Python `s.split(pat)[0]`). -/
def takeUntilSub (pat : List Char) : List Char → List Char
  | [] => []
  | c :: rest =>
    if pat.isPrefixOf (c :: rest) then []
    else c :: takeUntilSub pat rest

/-- Suffix of `l` after the first occurrence of the substring `pat`,
or `none` when `pat` does not occur. -/
def dropThroughSub (pat : List Char) : List Char → Option (List Char)
  | [] => if pat.isEmpty then some [] else none
  | c :: rest =>
    if pat.isPrefixOf (c :: rest) then some ((c :: rest).drop pat.length)
    else dropThroughSub pat rest

/-- Model of Python `sep.join(xs)`. -/
def joinSep (sep : String) : List String → String
  | [] => ""
  | [x] => x
  | x :: xs => x ++ sep ++ joinSep sep xs

/-! ### URL parsing and resolution

Models of the `urllib.parse` functions the crawler calls, restricted to
the reference shapes it produces: absolute `scheme://…` URLs,
path-absolute references, and relative references without dot-segments. -/

/-- Model of `urlparse(url).netloc`: the text between `://` and the next
`/`, `?` or `#`; empty when the string has no `://`. -/
def netlocOf (url : String) : String :=
  match dropThroughSub "://".data url.data with
  | none => ""
  | some r => (r.takeWhile (fun c => c ≠ '/' ∧ c ≠ '?' ∧ c ≠ '#')).asString

/-- Model of `urlparse(url).scheme` for URLs containing `://`. -/
def schemeOf (url : String) : String :=
  match dropThroughSub "://".data url.data with
  | none => ""
  | some _ => (takeUntilChar ':' url.data).asString

/-- Path component of an absolute URL: the text after the netloc and
before `?` or `#`. -/
def pathOfAbs (url : String) : String :=
  match dropThroughSub "://".data url.data with
  | none => ""
  | some r =>
    ((r.dropWhile (fun c => c ≠ '/' ∧ c ≠ '?' ∧ c ≠ '#')).takeWhile
      (fun c => c ≠ '?' ∧ c ≠ '#')).asString

/-- Model of `urllib.parse.urljoin(base, ref)` for the reference shapes the
crawler produces (no dot-segments): an absolute reference is returned
as-is, a network-path reference takes the base scheme, a path-absolute
reference resolves against the base origin, and a relative reference
replaces the last segment of the base path. -/
def urljoin (base ref : String) : String :=
  if (dropThroughSub "://".data ref.data).isSome then ref
  else if strStarts ref "//" then schemeOf base ++ ":" ++ ref
  else if strStarts ref "/" then schemeOf base ++ "://" ++ netlocOf base ++ ref
  else
    let dir := (pathOfAbs base).data
    let dir := if dir.contains '/' then (dir.reverse.dropWhile (fun c => c ≠ '/')).reverse
               else ['/']
    schemeOf base ++ "://" ++ netlocOf base ++ dir.asString ++ ref

/-! ### Link rejection, resolution and canonicalization
(`discover_urls`, lines 315-343 of `export_to_pdf.py`). -/

/-- Denylisted binary extensions from line 323. -/
def binExtensions : List String := [".pdf", ".jpg", ".png", ".gif", ".zip"]

/-- Link rejection (lines 319-324): fragment-only, script-pseudo, mailto,
tel, or any denylisted extension occurring as a substring of the
lowercased href. -/
def rejectHref (href : String) : Bool :=
  strStarts href "#" || strStarts href "javascript:" ||
  strStarts href "mailto:" || strStarts href "tel:" ||
  binExtensions.any (fun e => strContains (lowerStr href) e)

/-- Spec-side predicate, following the spec's words: the reference's path
(the part before any query or fragment) ends in a denylisted binary
extension.  Stated for comparison with `rejectHref`. -/
def specPathEndsInBinExt (href : String) : Bool :=
  binExtensions.any (fun e =>
    strEnds (lowerStr ((href.data.takeWhile (fun c => c ≠ '?' ∧ c ≠ '#')).asString)) e)

/-- Absolutization of an accepted href (lines 327-330): path-absolute
references resolve against the origin, non-`http`-prefixed references
against the current page, and the rest are used as-is. -/
def resolveHref (base_url current_url href : String) : String :=
  if strStarts href "/" then urljoin base_url href
  else if !(strStarts href "http") then urljoin current_url href
  else href

/-- Model of Python `s.rstrip('/')` on character lists. -/
def rstripSlash (l : List Char) : List Char :=
  (l.reverse.dropWhile (fun c => c = '/')).reverse

/-- Canonicalization (line 338): `href.split('#')[0].rstrip('/')` — drop
the fragment, then drop every trailing slash. -/
def cleanUrl (href : String) : String :=
  (rstripSlash (takeUntilChar '#' href.data)).asString

/-- Normalized in-scope link keys produced from the hrefs of one fetched
page (the body of the `for a in soup.find_all('a', href=True)` loop,
lines 315-343): rejected hrefs yield nothing, resolved hrefs with a
foreign netloc yield nothing, the rest yield their canonical key. -/
def linksFrom (base_url base_domain current_url : String) (hrefs : List String) :
    List String :=
  hrefs.filterMap (fun href =>
    if rejectHref href then none
    else
      let abs := resolveHref base_url current_url href
      if netlocOf abs ≠ base_domain then none
      else some (cleanUrl abs))

/-! ### The crawl frontier (`discover_urls`, lines 300-357). -/

/-- Observable events of one crawl: dequeuing a frontier entry, the
outcome of its fetch, and the politeness sleep (`time.sleep(0.3)`). -/
inductive CrawlEvent where
  | dequeue (url : String) (depth : Nat)
  | fetchOk (url : String)
  | fetchErr (url : String)
  | sleep
deriving Repr, DecidableEq

/-- Lines 340-343: for each candidate key in order, when it is not yet a
key of `discovered`, append it to `discovered` and to the frontier at
depth `d + 1`.  `discovered` is Python's `OrderedDict` as an
insertion-ordered association list. -/
def addLinks (d : Nat) : List String → List (String × Nat) → List (String × Nat) →
    List (String × Nat) × List (String × Nat)
  | [], disc, tv => (disc, tv)
  | c :: cs, disc, tv =>
    if disc.any (fun p => p.1 = c) then addLinks d cs disc tv
    else addLinks d cs (disc ++ [(c, d + 1)]) (tv ++ [(c, d + 1)])

/-- The crawl loop (lines 304-346), fuel-indexed.  Each iteration checks
the loop conditions (`to_visit` nonempty, fewer than `2 * max_urls`
discovered), pops the frontier head, drops it when its depth reached
`max_depth` (`continue`, no fetch, no sleep), otherwise fetches it; a
fetch error contributes nothing and skips the sleep (`continue`), and a
successful fetch enqueues the page's fresh links and then sleeps.
Returns the final `discovered` list and the event trace. -/
def crawlLoop (fetch : String → Option (List String))
    (base_url base_domain : String) (max_depth max_urls : Nat) :
    Nat → List (String × Nat) → List (String × Nat) →
    List (String × Nat) × List CrawlEvent
  | 0, disc, _ => (disc, [])
  | Nat.succ fuel, disc, tv =>
    match tv with
    | [] => (disc, [])
    | (u, d) :: rest =>
      if disc.length < max_urls * 2 then
        if d ≥ max_depth then
          let r := crawlLoop fetch base_url base_domain max_depth max_urls fuel disc rest
          (r.1, .dequeue u d :: r.2)
        else
          match fetch u with
          | none =>
            let r := crawlLoop fetch base_url base_domain max_depth max_urls fuel disc rest
            (r.1, .dequeue u d :: .fetchErr u :: r.2)
          | some hrefs =>
            let cleans := linksFrom base_url base_domain u hrefs
            let s := addLinks d cleans disc rest
            let r := crawlLoop fetch base_url base_domain max_depth max_urls fuel s.1 s.2
            (r.1, .dequeue u d :: .fetchOk u :: .sleep :: r.2)
      else (disc, [])

/-- Stage 1, `discover_urls` (lines 278-357): seed the frontier and the
`discovered` map with the raw start URL at depth 0, run the loop, then
apply the optional (case-insensitive) substring filter and truncate to
`max_urls`.  `fetch` abstracts `fetch_page` as the list of href
attributes of the page's anchors, or `none` on a fetch error; `fuel`
bounds the number of loop iterations. -/
def discover_urls (fetch : String → Option (List String)) (fuel : Nat)
    (start_url : String) (filter_pattern : Option String)
    (max_depth max_urls : Nat) : List String :=
  let base_domain := netlocOf start_url
  let base_url := schemeOf start_url ++ "://" ++ base_domain
  let r := crawlLoop fetch base_url base_domain max_depth max_urls fuel
    [(start_url, 0)] [(start_url, 0)]
  let urls := r.1.map Prod.fst
  let urls := match filter_pattern with
    | none => urls
    | some p => urls.filter (fun u => strContains (lowerStr u) (lowerStr p))
  urls.take max_urls

/-- Event trace of the same crawl that `discover_urls` runs. -/
def discoverTrace (fetch : String → Option (List String)) (fuel : Nat)
    (start_url : String) (max_depth max_urls : Nat) : List CrawlEvent :=
  let base_domain := netlocOf start_url
  let base_url := schemeOf start_url ++ "://" ++ base_domain
  (crawlLoop fetch base_url base_domain max_depth max_urls fuel
    [(start_url, 0)] [(start_url, 0)]).2

/-- Number of `fetch_page` calls for `u` recorded in a trace. -/
def fetchCount (evs : List CrawlEvent) (u : String) : Nat :=
  (evs.filter (fun e => e = .fetchOk u ∨ e = .fetchErr u)).length

/-- URLs of the dequeue events of a trace, in order. -/
def dequeueKeys : List CrawlEvent → List String
  | [] => []
  | .dequeue u _ :: rest => u :: dequeueKeys rest
  | _ :: rest => dequeueKeys rest

/-- Depths of the dequeue events of a trace, in order. -/
def dequeueDepths : List CrawlEvent → List Nat
  | [] => []
  | .dequeue _ d :: rest => d :: dequeueDepths rest
  | _ :: rest => dequeueDepths rest

/-- URLs passed to `fetch_page` in a trace, in call order. -/
def fetchKeys : List CrawlEvent → List String
  | [] => []
  | .fetchOk u :: rest => u :: fetchKeys rest
  | .fetchErr u :: rest => u :: fetchKeys rest
  | _ :: rest => fetchKeys rest

/-- Holds when, between every dequeue event and the next dequeue event,
a sleep event occurs (the flag records "a dequeue happened and no sleep
has been seen since"). -/
def politeTrace : Bool → List CrawlEvent → Bool
  | _, [] => true
  | needSleep, .dequeue _ _ :: rest => !needSleep && politeTrace true rest
  | _, .sleep :: rest => politeTrace false rest
  | needSleep, _ :: rest => politeTrace needSleep rest

/-- The original politeness reading: a sleep separates every pair of
consecutive dequeues. -/
def sleepBetweenDequeues (evs : List CrawlEvent) : Bool :=
  politeTrace false evs

/-- Every successful fetch is immediately followed by a sleep event. -/
def fetchOkImmediatelySlept : List CrawlEvent → Bool
  | [] => true
  | .fetchOk _ :: rest =>
    (match rest with
     | .sleep :: _ => true
     | _ => false) && fetchOkImmediatelySlept rest
  | _ :: rest => fetchOkImmediatelySlept rest

/-! ### The document tree (BeautifulSoup model)

A parsed page is a tree of elements (with tag, class list and other
attributes) and text nodes, mirroring what the extractor reads from a
`BeautifulSoup` object. -/

inductive HNode where
  | textNode (s : String)
  | elem (tag : String) (classes : List String) (attrs : List (String × String))
      (children : List HNode)

mutual

/-- All descendant text-node strings in document order
(BeautifulSoup `element.strings`). -/
def allStrings : HNode → List String
  | .textNode s => [s]
  | .elem _ _ _ cs => allStringsList cs

/-- Strings of a forest, in order. -/
def allStringsList : List HNode → List String
  | [] => []
  | c :: cs => allStrings c ++ allStringsList cs

end

mutual

/-- All descendant elements in pre-order document order
(BeautifulSoup `find_all(True)`, which excludes the node itself). -/
def descAll : HNode → List HNode
  | .textNode _ => []
  | .elem _ _ _ cs => descAllList cs

/-- Pre-order elements of a forest. -/
def descAllList : List HNode → List HNode
  | [] => []
  | c :: cs =>
    (match c with
     | .textNode _ => []
     | .elem t cl a ch => HNode.elem t cl a ch :: descAll (.elem t cl a ch))
    ++ descAllList cs

end

/-- Direct children of a node. -/
def childrenOf : HNode → List HNode
  | .textNode _ => []
  | .elem _ _ _ cs => cs

/-- Whether a node is an element with the given tag. -/
def isTagged (t : String) (n : HNode) : Bool :=
  match n with
  | .elem tag _ _ _ => tag = t
  | _ => false

/-- Model of `get_text(separator=sep, strip=True)`: every descendant
string is stripped, empty results are dropped, and the rest are joined
with `sep`. -/
def getTextSep (sep : String) (n : HNode) : String :=
  joinSep sep (((allStrings n).map pyStrip).filter (fun s => s ≠ ""))

/-- First descendant element with the given tag (BeautifulSoup
`soup.find(t)`). -/
def findTag (soup : HNode) (t : String) : Option HNode :=
  (descAll soup).find? (isTagged t)

/-! ### CSS selectors used by the extractor -/

/-- The selector forms occurring in `extract_page_content`: a tag, a
class, an exact attribute value, and a descendant combination of two
simple selectors. -/
inductive Sel where
  | tagSel (t : String)
  | classSel (c : String)
  | attrSel (key value : String)
  | descSel (anc child : Sel)

/-- Matching of a simple (non-descendant) selector against a node. -/
def matchesSimple (s : Sel) (n : HNode) : Bool :=
  match s, n with
  | .tagSel t, .elem tag _ _ _ => tag = t
  | .classSel c, .elem _ classes _ _ => classes.contains c
  | .attrSel k v, .elem _ _ attrs _ => attrs.contains (k, v)
  | _, _ => false

/-- Matching of a selector against a node with its ancestor chain; the
descendant combinator requires an ancestor matching its first part. -/
def selMatchesAt (s : Sel) (ancestors : List HNode) (n : HNode) : Bool :=
  match s with
  | .descSel a b => matchesSimple b n && ancestors.any (fun x => matchesSimple a x)
  | _ => matchesSimple s n

mutual

/-- Matches of a selector in the subtree below one node, pre-order,
carrying the ancestor chain (BeautifulSoup `select`). -/
def selectNode (s : Sel) (ancestors : List HNode) : HNode → List HNode
  | .textNode _ => []
  | .elem t cl a ch =>
    (if selMatchesAt s ancestors (.elem t cl a ch) then [HNode.elem t cl a ch] else [])
    ++ selectList s (HNode.elem t cl a ch :: ancestors) ch

/-- Matches of a selector in a forest, pre-order. -/
def selectList (s : Sel) (ancestors : List HNode) : List HNode → List HNode
  | [] => []
  | c :: cs => selectNode s ancestors c ++ selectList s ancestors cs

end

/-- First match in document order (BeautifulSoup `select_one`). -/
def select_one (root : HNode) (s : Sel) : Option HNode :=
  (selectList s [root] (childrenOf root)).head?

mutual

/-- Removal of every subtree below one node matching a simple selector
(the `unwanted.decompose()` loop); the node itself is kept, as
`select` never returns the node it is called on. -/
def removeSelNode (s : Sel) : HNode → List HNode
  | .textNode t => [HNode.textNode t]
  | .elem tag cl a ch =>
    if matchesSimple s (.elem tag cl a ch) then []
    else [HNode.elem tag cl a (removeSelList s ch)]

/-- Removal over a forest. -/
def removeSelList (s : Sel) : List HNode → List HNode
  | [] => []
  | c :: cs => removeSelNode s c ++ removeSelList s cs

end

/-- Removal applied below a root node. -/
def removeSel (s : Sel) (n : HNode) : HNode :=
  match n with
  | .textNode t => .textNode t
  | .elem tag cl a ch => .elem tag cl a (removeSelList s ch)

/-- The content-root selector priority list (lines 401-414). -/
def contentSelectors : List Sel :=
  [ .descSel (.tagSel "main") (.tagSel "article"),
    .descSel (.tagSel "main") (.classSel "content"),
    .tagSel "article", .tagSel "main",
    .classSel "docs-content", .classSel "doc-content", .classSel "markdown-body",
    .classSel "post-content", .classSel "entry-content", .classSel "article-content",
    .classSel "page-content", .attrSel "role" "main" ]

/-- The boilerplate denylist (lines 433-441); all entries are simple
selectors. -/
def unwantedSelectors : List Sel :=
  [ .tagSel "script", .tagSel "style", .tagSel "noscript", .tagSel "iframe",
    .tagSel "nav", .tagSel "header", .tagSel "footer", .tagSel "aside",
    .classSel "sidebar", .classSel "menu", .classSel "navigation", .classSel "nav",
    .classSel "comments", .classSel "ad", .classSel "advertisement",
    .classSel "cookie-banner", .classSel "popup", .classSel "modal",
    .attrSel "role" "navigation", .attrSel "role" "banner",
    .classSel "toc", .classSel "table-of-contents", .classSel "on-this-page" ]

/-- Content-root selection (lines 416-423): the first selector whose
first match has stripped text longer than 100 characters. -/
def pickMain (soup : HNode) : List Sel → Option HNode
  | [] => none
  | s :: rest =>
    match select_one soup s with
    | some m => if (getTextSep "" m).length > 100 then some m else pickMain soup rest
    | none => pickMain soup rest

/-! ### Content-block classification (`extract_page_content`, lines 360-561) -/

/-- The typed content blocks of one page (`content['sections']` entries). -/
inductive ContentBlock where
  | heading (level : Nat) (text : String)
  | paragraph (text : String)
  | listBlock (ordered : Bool) (items : List String)
  | codeBlock (text : String)
  | quote (text : String)
deriving Repr, DecidableEq

/-- Heading tags handled by the classifier (line 459). -/
def headingTags : List String := ["h1", "h2", "h3", "h4", "h5", "h6"]

/-- Model of `int(tag[1])` for `h1`…`h6`. -/
def headingLevel (tag : String) : Nat :=
  match tag.data with
  | _ :: d :: _ => d.toNat - '0'.toNat
  | _ => 0

/-- Tags counted as block-level children in the container branch
(line 532 — note `h5`, `h6` are absent there). -/
def blockChildTags : List String :=
  ["p", "h1", "h2", "h3", "h4", "ul", "ol", "pre", "blockquote"]

/-- One step of the `ul`/`ol` item loop (lines 483-487): a direct `li`
child whose text is nonempty and not yet recorded is recorded and
collected; everything else is skipped. -/
def liStep (acc : List String × List String) (c : HNode) : List String × List String :=
  match c with
  | .elem "li" _ _ _ =>
    let item := getTextSep " " c
    if item ≠ "" ∧ item ∉ acc.1 then (acc.1 ++ [item], acc.2 ++ [item]) else acc
  | _ => acc

/-- One step of `process_element` (lines 451-540): classify a single
element against the state `(processed_texts, sections)`.  The
`processed_texts` set is modelled as the list of recorded texts in
recording order; every emission records its source text. -/
def processElement (st : List String × List ContentBlock) (e : HNode) :
    List String × List ContentBlock :=
  match e with
  | .textNode _ => st
  | .elem tag _ _ children =>
    if tag ∈ headingTags then
      let text := getTextSep " " e
      if text ≠ "" ∧ text ∉ st.1 ∧ text.length > 1 then
        (st.1 ++ [text], st.2 ++ [.heading (headingLevel tag) text])
      else st
    else if tag = "p" then
      let text := getTextSep " " e
      if text ≠ "" ∧ text.length > 15 ∧ text ∉ st.1 then
        (st.1 ++ [text], st.2 ++ [.paragraph text])
      else st
    else if tag = "ul" ∨ tag = "ol" then
      let r := children.foldl liStep (st.1, ([] : List String))
      if r.2 ≠ [] then (r.1, st.2 ++ [.listBlock (tag = "ol") r.2]) else (r.1, st.2)
    else if tag = "pre" then
      let text := match (descAll e).find? (isTagged "code") with
        | some codeElem => getTextSep "" codeElem
        | none => getTextSep "" e
      if text ≠ "" ∧ text ∉ st.1 ∧ text.length > 5 then
        (st.1 ++ [text], st.2 ++ [.codeBlock (strTake text 1000)])
      else st
    else if tag = "blockquote" then
      let text := getTextSep " " e
      if text ≠ "" ∧ text ∉ st.1 then
        (st.1 ++ [text], st.2 ++ [.quote text])
      else st
    else if tag = "div" ∨ tag = "section" ∨ tag = "span" then
      let direct := pyStrip (joinSep "" (children.filterMap (fun c =>
        match c with
        | .textNode s => some (pyStrip s)
        | _ => none)))
      if direct ≠ "" ∧ direct.length > 30 then
        let hasBlock := children.any (fun c =>
          match c with
          | .elem t _ _ _ => t ∈ blockChildTags
          | _ => false)
        if ¬hasBlock = true ∧ direct ∉ st.1 then
          (st.1 ++ [direct], st.2 ++ [.paragraph direct])
        else st
      else st
    else st

/-- The classification pass (lines 543-544): fold `process_element` over
all elements of the content root in document order, starting from an
empty `processed_texts` set and an empty section list. -/
def classifyRun (root : HNode) : List String × List ContentBlock :=
  (descAll root).foldl processElement ([], [])

/-- The zero-block fallback (lines 547-559): split the content root's
`get_text('\n', strip=True)` on line breaks, strip each line, and emit
every nonempty line longer than 30 characters as a paragraph. -/
def fallbackSections (mainC : HNode) : List ContentBlock :=
  let all_text := getTextSep "\n" mainC
  let paragraphs := ((splitChar '\n' all_text.data).map
    (fun l => (stripChars l).asString)).filter (fun p => p ≠ "")
  (paragraphs.filter (fun p => p.length > 30)).map ContentBlock.paragraph

/-- Title resolution (lines 384-397): the first `h1`'s text, else the
`title` tag's text truncated at the first " - ", else at the first
" | ". -/
def titleOf (soup : HNode) : String :=
  match findTag soup "h1" with
  | some h1 => getTextSep " " h1
  | none =>
    match findTag soup "title" with
    | some tt =>
      let t := getTextSep "" tt
      if strContains t " - " then (takeUntilSub " - ".data t.data).asString
      else if strContains t " | " then (takeUntilSub " | ".data t.data).asString
      else t
    | none => ""

/-- The extraction result (`content` dictionary). -/
structure PageContent where
  url : String
  title : String
  sections : List ContentBlock
deriving Repr, DecidableEq

/-- Static-page `extract_page_content` (lines 360-561): resolve the
title, pick the content root (falling back to `body`, then the whole
soup), remove the boilerplate subtrees, classify the remaining elements
in document order, and apply the line-split fallback when
classification yields no blocks. -/
def extract_page_content (soup : HNode) (url : String) : PageContent :=
  let title := titleOf soup
  let main0 := match pickMain soup contentSelectors with
    | some m => m
    | none =>
      match findTag soup "body" with
      | some b => b
      | none => soup
  let mainC := unwantedSelectors.foldl (fun n s => removeSel s n) main0
  let secs := (classifyRun mainC).2
  let secs := if secs = [] then fallbackSections mainC else secs
  { url := url, title := title, sections := secs }

/-! ### Stage 2 and assembly (`main`, lines 1013-1077, and `merge_pdfs`) -/

/-- Stage 2 loop (lines 1023-1050), recursing over the URL list with the
1-based counter `i`: a fetch error skips the page, an empty section
list skips the page, a successful render appends the artifact
(modelled by its `(i, url)` filename data) and the TOC entry
`(title or url, len(pdf_paths))`.  `renderOk` abstracts
`create_page_pdf`'s success. -/
def stage2Go (fetch : String → Option HNode) (renderOk : PageContent → Bool) :
    Nat → List String → List (Nat × String) → List (String × Nat) →
    List (Nat × String) × List (String × Nat)
  | _, [], paths, tocs => (paths, tocs)
  | i, u :: rest, paths, tocs =>
    match fetch u with
    | none => stage2Go fetch renderOk (i + 1) rest paths tocs
    | some soup =>
      let content := extract_page_content soup u
      if content.sections = [] then stage2Go fetch renderOk (i + 1) rest paths tocs
      else if renderOk content then
        stage2Go fetch renderOk (i + 1) rest (paths ++ [(i, u)])
          (tocs ++ [(if content.title = "" then u else content.title, paths.length + 1)])
      else stage2Go fetch renderOk (i + 1) rest paths tocs

/-- Stage 2 entry point: process the discovered URLs in order starting
from counter 1 and empty accumulators. -/
def stage2 (fetch : String → Option HNode) (renderOk : PageContent → Bool)
    (urls : List String) : List (Nat × String) × List (String × Nat) :=
  stage2Go fetch renderOk 1 urls [] []

/-- One artifact of the final document: the generated TOC, or one page
artifact. -/
inductive DocItem where
  | tocPage (entries : List (String × Nat))
  | contentPage (artifact : Nat × String)
deriving Repr, DecidableEq

/-- Assembly, `merge_pdfs` (lines 749-799) at artifact granularity: the
TOC artifact built from the entries, followed by the page artifacts in
list order.  (Per-artifact read failures of just-written files are not
modelled.) -/
def merge_pdfs (pdf_paths : List (Nat × String)) (toc_entries : List (String × Nat)) :
    List DocItem :=
  DocItem.tocPage toc_entries :: pdf_paths.map DocItem.contentPage

/-- Run-level failure of `main` (lines 1009-1011 and 1057-1059): the run
exits with an error exactly at `if not urls` and `if not pdf_paths`;
a failed merge only prints a warning (lines 1089-1090). -/
def runFails (fetch : String → Option HNode) (renderOk : PageContent → Bool)
    (urls : List String) : Bool :=
  urls.isEmpty || ((stage2 fetch renderOk urls).1).isEmpty

/-! ### Concrete scenarios -/

/-- The spec's end-to-end synthetic site: pages `/`, `/a`, `/b`, each
linking to the other two, served from `https://example.test`. -/
def exSite : String → Option (List String) := fun u =>
  if u = "https://example.test/" then some ["/a", "/b"]
  else if u = "https://example.test/a" then some ["/", "/b"]
  else if u = "https://example.test/b" then some ["/", "/a"]
  else none

/-- A site whose `/bad` page fails to fetch while `/good` succeeds. -/
def exSiteFlaky : String → Option (List String) := fun u =>
  if u = "https://example.test/" then some ["/bad", "/good"]
  else if u = "https://example.test/good" then some []
  else none

/-- A minimal page document whose body is one paragraph. -/
def pageDoc (txt : String) : HNode :=
  .elem "html" [] [] [.elem "body" [] [] [.elem "p" [] [] [.textNode txt]]]

/-- Five page URLs for the assembler-ordinal scenario. -/
def fiveUrls : List String :=
  ["https://s.test/1", "https://s.test/2", "https://s.test/3",
   "https://s.test/4", "https://s.test/5"]

/-- Fetcher serving every one of the five URLs the same one-paragraph page. -/
def fiveFetch : String → Option HNode := fun u =>
  if u ∈ fiveUrls then some (pageDoc "Content of a page with a sufficiently long paragraph.")
  else none

/-- Renderer that fails exactly on page 3. -/
def failThird : PageContent → Bool := fun c => c.url ≠ "https://s.test/3"

/-! ### Helper lemmas -/

theorem asString_data (s : String) : s.data.asString = s := rfl

theorem data_asString (l : List Char) : l.asString.data = l := rfl

theorem takeUntilChar_eq_self (c0 : Char) (l : List Char) (h : ∀ c ∈ l, c ≠ c0) :
    takeUntilChar c0 l = l := by
  induction l with
  | nil => rfl
  | cons c cs ih =>
    have hc : c ≠ c0 := h c (by simp)
    have hstep : takeUntilChar c0 (c :: cs) = c :: takeUntilChar c0 cs := by
      simp [takeUntilChar, List.takeWhile_cons, hc]
    rw [hstep, ih (fun x hx => h x (List.mem_cons_of_mem _ hx))]

theorem takeUntilChar_append (c0 : Char) (l l2 : List Char) (h : ∀ c ∈ l, c ≠ c0) :
    takeUntilChar c0 (l ++ l2) = l ++ takeUntilChar c0 l2 := by
  induction l with
  | nil => rfl
  | cons c cs ih =>
    have hc : c ≠ c0 := h c (by simp)
    have hstep : takeUntilChar c0 ((c :: cs) ++ l2) = c :: takeUntilChar c0 (cs ++ l2) := by
      simp [takeUntilChar, List.takeWhile_cons, hc]
    rw [hstep, ih (fun x hx => h x (List.mem_cons_of_mem _ hx))]
    simp

theorem takeUntilChar_cons_stop (c0 : Char) (rest : List Char) :
    takeUntilChar c0 (c0 :: rest) = [] := by
  simp [takeUntilChar, List.takeWhile_cons]

theorem rstripSlash_append_slash (l : List Char) :
    rstripSlash (l ++ ['/']) = rstripSlash l := by
  simp [rstripSlash, List.reverse_append, List.dropWhile_cons]

theorem rstripSlash_eq_self (l : List Char) (h : l.getLast? ≠ some '/') :
    rstripSlash l = l := by
  rw [List.getLast?_eq_head?_reverse] at h
  unfold rstripSlash
  cases hr : l.reverse with
  | nil =>
    have : l = [] := List.reverse_eq_nil_iff.mp hr
    simp [this]
  | cons c cs =>
    rw [hr] at h
    have hc : ¬ (c = '/') := by
      intro e
      exact h (by simp [e])
    rw [List.dropWhile_cons, if_neg (by simpa using hc), ← hr, List.reverse_reverse]

theorem strStarts_append (p s : String) : strStarts (p ++ s) p = true := by
  simp [strStarts, String.data_append, List.isPrefixOf_iff_prefix, List.prefix_append]

theorem strContains_iff (s pat : String) :
    strContains s pat = true ↔ pat.data <:+: s.data := by
  simp only [strContains, List.any_eq_true, List.mem_tails,
    List.isPrefixOf_iff_prefix, List.infix_iff_prefix_suffix]
  constructor
  · rintro ⟨t, hts, hpt⟩
    exact ⟨t, hpt, hts⟩
  · rintro ⟨t, hpt, hts⟩
    exact ⟨t, hts, hpt⟩

/-! ### Claim C3: canonicalization -/

/-- Claim C3, counterexample.  The claim states that canonicalization
strips exactly one trailing slash and preserves the root path `/`.
The code's `rstrip('/')` strips every trailing slash, so the root URL
`https://example.test/` maps to `https://example.test` (root path not
preserved) and `https://example.test/a//` maps to
`https://example.test/a` (two slashes stripped, not one). -/
theorem claim3_counterexample :
    cleanUrl "https://example.test/" = "https://example.test" ∧
    "https://example.test" ≠ "https://example.test/" ∧
    cleanUrl "https://example.test/a//" = "https://example.test/a" ∧
    "https://example.test/a" ≠ "https://example.test/a/" := by
  decide

/-- Claim C3, amended: URL canonicalization strips the fragment and all
trailing slashes from a resolved link target (so the root URL
`scheme://host/` maps to `scheme://host`), preserves the rest of the
string (scheme, host, path, query), and therefore maps any two
references to the same resource that differ only by fragment or
trailing slashes to the same URL key. -/
theorem claim3_thm (u f : String) (hu : ∀ c ∈ u.data, c ≠ '#') :
    cleanUrl (u ++ "#" ++ f) = cleanUrl u ∧
    cleanUrl (u ++ "/") = cleanUrl u ∧
    (u.data.getLast? ≠ some '/' → cleanUrl u = u) := by
  have hdata : (u ++ "#" ++ f).data = u.data ++ '#' :: f.data := by
    simp [String.data_append]
  have htu : takeUntilChar '#' u.data = u.data := takeUntilChar_eq_self '#' u.data hu
  refine ⟨?_, ?_, ?_⟩
  · unfold cleanUrl
    rw [hdata, takeUntilChar_append '#' u.data ('#' :: f.data) hu,
      takeUntilChar_cons_stop, List.append_nil, htu]
  · unfold cleanUrl
    have hdata2 : (u ++ "/").data = u.data ++ ['/'] := by
      simp [String.data_append]
    rw [hdata2, takeUntilChar_append '#' u.data ['/'] hu, htu]
    have : takeUntilChar '#' ['/'] = ['/'] := by decide
    rw [this, rstripSlash_append_slash]
  · intro hlast
    unfold cleanUrl
    rw [htu, rstripSlash_eq_self u.data hlast, asString_data]

/-- Claim C3, witness for the amended theorem at a concrete URL with a
query, a fragment and a trailing slash. -/
theorem claim3_witness :
    cleanUrl ("https://example.test/a?q=1" ++ "#" ++ "frag") =
      cleanUrl "https://example.test/a?q=1" ∧
    cleanUrl ("https://example.test/a?q=1" ++ "/") = cleanUrl "https://example.test/a?q=1" ∧
    cleanUrl "https://example.test/a?q=1" = "https://example.test/a?q=1" := by
  have h := claim3_thm "https://example.test/a?q=1" "frag" (by decide)
  exact ⟨h.1, h.2.1, h.2.2 (by decide)⟩

/-! ### Claim C4: link rejection -/

/-- Claim C4, counterexample.  The claim states that a reference whose
path does not end in a denylisted extension is not rejected on the
extension ground.  The code tests substring containment over the whole
lowercased href, so `/manual.pdf.html` — whose path ends in `.html`,
not a denylisted extension, and which matches no other rejection
prefix — is nevertheless rejected. -/
theorem claim4_counterexample :
    rejectHref "/manual.pdf.html" = true ∧
    specPathEndsInBinExt "/manual.pdf.html" = false ∧
    strStarts "/manual.pdf.html" "#" = false ∧
    strStarts "/manual.pdf.html" "javascript:" = false ∧
    strStarts "/manual.pdf.html" "mailto:" = false ∧
    strStarts "/manual.pdf.html" "tel:" = false := by
  decide

/-- Claim C4, amended: link normalization rejects every fragment-only,
`javascript:`, `mailto:` and `tel:` reference, and rejects a reference
on the extension ground exactly when a denylisted extension occurs as a
substring anywhere in the lowercased href — which in particular covers
every reference whose path ends in a denylisted extension; a reference
containing no denylisted extension substring is rejected only on the
four prefix grounds. -/
theorem claim4_thm :
    (∀ s, rejectHref ("#" ++ s) = true) ∧
    (∀ s, rejectHref ("javascript:" ++ s) = true) ∧
    (∀ s, rejectHref ("mailto:" ++ s) = true) ∧
    (∀ s, rejectHref ("tel:" ++ s) = true) ∧
    (∀ href, specPathEndsInBinExt href = true → rejectHref href = true) ∧
    (∀ href, binExtensions.any (fun e => strContains (lowerStr href) e) = false →
      rejectHref href = (strStarts href "#" || strStarts href "javascript:" ||
        strStarts href "mailto:" || strStarts href "tel:")) := by
  refine ⟨?_, ?_, ?_, ?_, ?_, ?_⟩
  · intro s
    simp [rejectHref, strStarts_append]
  · intro s
    simp [rejectHref, strStarts_append]
  · intro s
    simp [rejectHref, strStarts_append]
  · intro s
    simp [rejectHref, strStarts_append]
  · intro href h
    simp only [specPathEndsInBinExt, List.any_eq_true] at h
    obtain ⟨e, he, hsuf⟩ := h
    have hinf : e.data <:+: (lowerStr href).data := by
      have hsuffix : e.data <:+
          ((href.data.takeWhile (fun c => c ≠ '?' ∧ c ≠ '#')).map Char.toLower) := by
        simpa [strEnds, lowerStr, List.isSuffixOf_iff_suffix, data_asString] using hsuf
      have hpre : ((href.data.takeWhile (fun c => c ≠ '?' ∧ c ≠ '#')).map Char.toLower) <+:
          (lowerStr href).data := by
        simpa [lowerStr, data_asString] using
          List.IsPrefix.map Char.toLower (List.takeWhile_prefix _)
      exact hsuffix.isInfix.trans hpre.isInfix
    have hext : binExtensions.any (fun x => strContains (lowerStr href) x) = true := by
      simp only [List.any_eq_true]
      exact ⟨e, he, (strContains_iff _ _).mpr hinf⟩
    simp [rejectHref, hext]
  · intro href h
    simp [rejectHref, h]

/-- Claim C4, witness for the amended theorem at the spec's concrete
examples and one denylisted-path and one plain reference. -/
theorem claim4_witness :
    rejectHref "#top" = true ∧ rejectHref "javascript:void(0)" = true ∧
    rejectHref "mailto:a@b.com" = true ∧ rejectHref "tel:123" = true ∧
    rejectHref "/files/doc.pdf" = true ∧ rejectHref "/about" = false := by
  refine ⟨claim4_thm.1 "top", claim4_thm.2.1 "void(0)", claim4_thm.2.2.1 "a@b.com",
    claim4_thm.2.2.2.1 "123", claim4_thm.2.2.2.2.1 "/files/doc.pdf" (by decide), ?_⟩
  exact (claim4_thm.2.2.2.2.2 "/about" (by decide)).trans (by decide)

/-! ### Crawl-loop lemmas -/

theorem addLinks_spec (d : Nat) : ∀ (cs : List String) (disc tv : List (String × Nat)),
    ∃ fresh : List (String × Nat),
      addLinks d cs disc tv = (disc ++ fresh, tv ++ fresh) ∧
      (∀ p ∈ fresh, p.2 = d + 1) ∧
      (fresh.map Prod.fst).Nodup ∧
      (∀ p ∈ fresh, ∀ q ∈ disc, p.1 ≠ q.1) := by
  intro cs
  induction cs with
  | nil =>
    intro disc tv
    exact ⟨[], by simp [addLinks], by simp, by simp, by simp⟩
  | cons c cs ih =>
    intro disc tv
    by_cases hc : disc.any (fun p => p.1 = c) = true
    · obtain ⟨fresh, heq, hd, hnd, hdis⟩ := ih disc tv
      exact ⟨fresh, by simpa [addLinks, hc] using heq, hd, hnd, hdis⟩
    · obtain ⟨fresh, heq, hd, hnd, hdis⟩ := ih (disc ++ [(c, d + 1)]) (tv ++ [(c, d + 1)])
      have hnotin : ∀ q ∈ disc, q.1 ≠ c := by
        intro q hq
        simp only [List.any_eq_true] at hc
        push_neg at hc
        simpa using hc q hq
      refine ⟨(c, d + 1) :: fresh, ?_, ?_, ?_, ?_⟩
      · have hstep : addLinks d (c :: cs) disc tv =
            addLinks d cs (disc ++ [(c, d + 1)]) (tv ++ [(c, d + 1)]) := by
          simp [addLinks, hc]
        rw [hstep, heq]
        simp
      · intro p hp
        rcases List.mem_cons.mp hp with h | h
        · rw [h]
        · exact hd p h
      · simp only [List.map_cons, List.nodup_cons]
        refine ⟨?_, hnd⟩
        intro hmem
        obtain ⟨p, hp, hpc⟩ := List.mem_map.mp hmem
        exact hdis p hp (c, d + 1) (by simp) (by simp [hpc])
      · intro p hp q hq
        rcases List.mem_cons.mp hp with h | h
        · rw [h]
          exact fun e => hnotin q hq (by simp [← e])
        · exact hdis p h q (List.mem_append_left _ hq)

theorem crawlLoop_disc_extends (fetch : String → Option (List String)) (bu bd : String)
    (md mu : Nat) : ∀ (fuel : Nat) (disc tv : List (String × Nat)),
    ∃ ext, (crawlLoop fetch bu bd md mu fuel disc tv).1 = disc ++ ext := by
  intro fuel
  induction fuel with
  | zero =>
    intro disc tv
    exact ⟨[], by simp [crawlLoop]⟩
  | succ fuel ih =>
    intro disc tv
    match tv with
    | [] => exact ⟨[], by simp [crawlLoop]⟩
    | (u, d) :: rest =>
      by_cases hlen : disc.length < mu * 2
      · by_cases hd : d ≥ md
        · obtain ⟨ext, hext⟩ := ih disc rest
          exact ⟨ext, by simpa [crawlLoop, hlen, hd] using hext⟩
        · cases hf : fetch u with
          | none =>
            obtain ⟨ext, hext⟩ := ih disc rest
            exact ⟨ext, by simpa [crawlLoop, hlen, hd, hf] using hext⟩
          | some hrefs =>
            obtain ⟨fresh, heq, _, _, _⟩ :=
              addLinks_spec d (linksFrom bu bd u hrefs) disc rest
            obtain ⟨ext, hext⟩ := ih (disc ++ fresh) (rest ++ fresh)
            refine ⟨fresh ++ ext, ?_⟩
            simp only [crawlLoop, hlen, if_pos, hd, if_neg, hf]
            simp only [heq, hext, List.append_assoc]
            simp [hlen, hd]
      · exact ⟨[], by simp [crawlLoop, hlen]⟩

theorem crawlLoop_dequeue_nodup (fetch : String → Option (List String)) (bu bd : String)
    (md mu : Nat) : ∀ (fuel : Nat) (disc tv : List (String × Nat)),
    (tv.map Prod.fst).Nodup →
    (∀ k ∈ tv.map Prod.fst, k ∈ disc.map Prod.fst) →
    (dequeueKeys (crawlLoop fetch bu bd md mu fuel disc tv).2).Nodup ∧
    (∀ k ∈ dequeueKeys (crawlLoop fetch bu bd md mu fuel disc tv).2,
      k ∈ tv.map Prod.fst ∨ k ∉ disc.map Prod.fst) := by
  intro fuel
  induction fuel with
  | zero =>
    intro disc tv _ _
    simp [crawlLoop, dequeueKeys]
  | succ fuel ih =>
    intro disc tv htv hsub
    match tv with
    | [] => simp [crawlLoop, dequeueKeys]
    | (u, d) :: rest =>
      simp only [List.map_cons, List.nodup_cons] at htv
      obtain ⟨hu_rest, hrest⟩ := htv
      have hu_disc : u ∈ disc.map Prod.fst := hsub u (by simp)
      have hrest_sub : ∀ k ∈ rest.map Prod.fst, k ∈ disc.map Prod.fst := by
        intro k hk
        exact hsub k (by simp [hk])
      by_cases hlen : disc.length < mu * 2
      · by_cases hd : d ≥ md
        · have hloop : (crawlLoop fetch bu bd md mu (fuel + 1) disc ((u, d) :: rest)).2 =
              .dequeue u d :: (crawlLoop fetch bu bd md mu fuel disc rest).2 := by
            simp [crawlLoop, hlen, hd]
          obtain ⟨ihnd, ihsub⟩ := ih disc rest hrest hrest_sub
          rw [hloop]
          simp only [dequeueKeys, List.nodup_cons]
          refine ⟨⟨?_, ihnd⟩, ?_⟩
          · intro hmem
            rcases ihsub u hmem with h | h
            · exact hu_rest h
            · exact h hu_disc
          · intro k hk
            rcases List.mem_cons.mp hk with h | h
            · exact Or.inl (by simp [h])
            · rcases ihsub k h with h2 | h2
              · exact Or.inl (by simp [h2])
              · exact Or.inr h2
        · cases hf : fetch u with
          | none =>
            have hloop : (crawlLoop fetch bu bd md mu (fuel + 1) disc ((u, d) :: rest)).2 =
                .dequeue u d :: .fetchErr u ::
                  (crawlLoop fetch bu bd md mu fuel disc rest).2 := by
              simp [crawlLoop, hlen, hd, hf]
            obtain ⟨ihnd, ihsub⟩ := ih disc rest hrest hrest_sub
            rw [hloop]
            simp only [dequeueKeys, List.nodup_cons]
            refine ⟨⟨?_, ihnd⟩, ?_⟩
            · intro hmem
              rcases ihsub u hmem with h | h
              · exact hu_rest h
              · exact h hu_disc
            · intro k hk
              rcases List.mem_cons.mp hk with h | h
              · exact Or.inl (by simp [h])
              · rcases ihsub k h with h2 | h2
                · exact Or.inl (by simp [h2])
                · exact Or.inr h2
          | some hrefs =>
            obtain ⟨fresh, heq, hfd, hfnd, hfdis⟩ :=
              addLinks_spec d (linksFrom bu bd u hrefs) disc rest
            have hloop : (crawlLoop fetch bu bd md mu (fuel + 1) disc ((u, d) :: rest)).2 =
                .dequeue u d :: .fetchOk u :: .sleep ::
                  (crawlLoop fetch bu bd md mu fuel (disc ++ fresh) (rest ++ fresh)).2 := by
              simp [crawlLoop, hlen, hd, hf, heq]
            have hfresh_not_disc : ∀ k ∈ fresh.map Prod.fst, k ∉ disc.map Prod.fst := by
              intro k hk hkd
              obtain ⟨p, hp, hpk⟩ := List.mem_map.mp hk
              obtain ⟨q, hq, hqk⟩ := List.mem_map.mp hkd
              exact hfdis p hp q hq (by rw [hpk, hqk])
            have htv2 : ((rest ++ fresh).map Prod.fst).Nodup := by
              rw [List.map_append, List.nodup_append]
              refine ⟨hrest, hfnd, ?_⟩
              intro k hk hk2
              exact hfresh_not_disc k hk2 (hrest_sub k hk)
            have hsub2 : ∀ k ∈ (rest ++ fresh).map Prod.fst,
                k ∈ (disc ++ fresh).map Prod.fst := by
              intro k hk
              rw [List.map_append, List.mem_append] at hk ⊢
              rcases hk with h | h
              · exact Or.inl (hrest_sub k h)
              · exact Or.inr h
            obtain ⟨ihnd, ihsub⟩ := ih (disc ++ fresh) (rest ++ fresh) htv2 hsub2
            rw [hloop]
            simp only [dequeueKeys, List.nodup_cons]
            refine ⟨⟨?_, ihnd⟩, ?_⟩
            · intro hmem
              rcases ihsub u hmem with h | h
              · rw [List.map_append, List.mem_append] at h
                rcases h with h2 | h2
                · exact hu_rest h2
                · exact hfresh_not_disc u h2 hu_disc
              · exact h (by rw [List.map_append]; exact List.mem_append_left _ hu_disc)
            · intro k hk
              rcases List.mem_cons.mp hk with h | h
              · exact Or.inl (by simp [h])
              · rcases ihsub k h with h2 | h2
                · rw [List.map_append, List.mem_append] at h2
                  rcases h2 with h3 | h3
                  · exact Or.inl (by simp [h3])
                  · exact Or.inr (hfresh_not_disc k h3)
                · refine Or.inr ?_
                  intro hkd
                  exact h2 (by rw [List.map_append]; exact List.mem_append_left _ hkd)
      · simp [crawlLoop, hlen, dequeueKeys]

theorem replicate_two_level_cons {d m : Nat} {ds : List Nat}
    (h : ∃ a b, d :: ds = List.replicate a m ++ List.replicate b (m + 1)) :
    (d = m ∧ ∃ a b, ds = List.replicate a m ++ List.replicate b (m + 1)) ∨
    (d = m + 1 ∧ ∃ b, ds = List.replicate b (m + 1)) := by
  obtain ⟨a, b, heq⟩ := h
  cases a with
  | zero =>
    simp only [List.replicate, List.nil_append] at heq
    cases b with
    | zero => simp at heq
    | succ b2 =>
      rw [List.replicate_succ] at heq
      injection heq with h1 h2
      exact Or.inr ⟨h1, b2, h2⟩
  | succ a2 =>
    rw [List.replicate_succ, List.cons_append] at heq
    injection heq with h1 h2
    exact Or.inl ⟨h1, a2, b, h2⟩

theorem crawlLoop_depths_chain (fetch : String → Option (List String)) (bu bd : String)
    (md mu : Nat) : ∀ (fuel : Nat) (disc tv : List (String × Nat)) (m : Nat),
    (∃ a b, tv.map Prod.snd = List.replicate a m ++ List.replicate b (m + 1)) →
    List.Chain' (· ≤ ·)
      (m :: dequeueDepths (crawlLoop fetch bu bd md mu fuel disc tv).2) := by
  intro fuel
  induction fuel with
  | zero =>
    intro disc tv m _
    simp [crawlLoop, dequeueDepths]
  | succ fuel ih =>
    intro disc tv m htwo
    match tv with
    | [] => simp [crawlLoop, dequeueDepths]
    | (u, d) :: rest =>
      simp only [List.map_cons] at htwo
      by_cases hlen : disc.length < mu * 2
      · have hrest2 : (d = m ∨ d = m + 1) ∧
            (∃ a b, rest.map Prod.snd = List.replicate a d ++ List.replicate b (d + 1)) := by
          rcases replicate_two_level_cons htwo with ⟨hdm, h2⟩ | ⟨hdm, b, h2⟩
          · exact ⟨Or.inl hdm, by rw [hdm]; exact h2⟩
          · refine ⟨Or.inr hdm, b, 0, ?_⟩
            rw [h2, hdm]
            simp
        have hmd : m ≤ d := by
          rcases hrest2.1 with h | h
          · exact h ▸ Nat.le_refl m
          · exact h ▸ Nat.le_succ m
        obtain ⟨ra, rb, hrestshape⟩ := hrest2.2
        by_cases hd : d ≥ md
        · have hloop : (crawlLoop fetch bu bd md mu (fuel + 1) disc ((u, d) :: rest)).2 =
              .dequeue u d :: (crawlLoop fetch bu bd md mu fuel disc rest).2 := by
            simp [crawlLoop, hlen, hd]
          rw [hloop]
          simp only [dequeueDepths]
          rw [List.chain'_cons]
          exact ⟨hmd, ih disc rest d ⟨ra, rb, hrestshape⟩⟩
        · cases hf : fetch u with
          | none =>
            have hloop : (crawlLoop fetch bu bd md mu (fuel + 1) disc ((u, d) :: rest)).2 =
                .dequeue u d :: .fetchErr u ::
                  (crawlLoop fetch bu bd md mu fuel disc rest).2 := by
              simp [crawlLoop, hlen, hd, hf]
            rw [hloop]
            simp only [dequeueDepths]
            rw [List.chain'_cons]
            exact ⟨hmd, ih disc rest d ⟨ra, rb, hrestshape⟩⟩
          | some hrefs =>
            obtain ⟨fresh, heq, hfd, _, _⟩ :=
              addLinks_spec d (linksFrom bu bd u hrefs) disc rest
            have hloop : (crawlLoop fetch bu bd md mu (fuel + 1) disc ((u, d) :: rest)).2 =
                .dequeue u d :: .fetchOk u :: .sleep ::
                  (crawlLoop fetch bu bd md mu fuel (disc ++ fresh) (rest ++ fresh)).2 := by
              simp [crawlLoop, hlen, hd, hf, heq]
            have hfreshshape : fresh.map Prod.snd =
                List.replicate (fresh.map Prod.snd).length (d + 1) := by
              refine List.eq_replicate_of_mem ?_
              intro x hx
              obtain ⟨p, hp, hpx⟩ := List.mem_map.mp hx
              rw [← hpx]
              exact hfd p hp
            have htv2 : ∃ a b, (rest ++ fresh).map Prod.snd =
                List.replicate a d ++ List.replicate b (d + 1) := by
              refine ⟨ra, rb + (fresh.map Prod.snd).length, ?_⟩
              rw [List.map_append, hrestshape, hfreshshape, List.replicate_add,
                List.append_assoc]
              simp
            rw [hloop]
            simp only [dequeueDepths]
            rw [List.chain'_cons]
            exact ⟨hmd, ih (disc ++ fresh) (rest ++ fresh) d htv2⟩
      · simp [crawlLoop, hlen, dequeueDepths]

theorem crawlLoop_fetch_sublist (fetch : String → Option (List String)) (bu bd : String)
    (md mu : Nat) : ∀ (fuel : Nat) (disc tv : List (String × Nat)),
    (fetchKeys (crawlLoop fetch bu bd md mu fuel disc tv).2).Sublist
      (dequeueKeys (crawlLoop fetch bu bd md mu fuel disc tv).2) := by
  intro fuel
  induction fuel with
  | zero =>
    intro disc tv
    simp [crawlLoop, fetchKeys, dequeueKeys]
  | succ fuel ih =>
    intro disc tv
    match tv with
    | [] => simp [crawlLoop, fetchKeys, dequeueKeys]
    | (u, d) :: rest =>
      by_cases hlen : disc.length < mu * 2
      · by_cases hd : d ≥ md
        · have hloop : (crawlLoop fetch bu bd md mu (fuel + 1) disc ((u, d) :: rest)).2 =
              .dequeue u d :: (crawlLoop fetch bu bd md mu fuel disc rest).2 := by
            simp [crawlLoop, hlen, hd]
          rw [hloop]
          simp only [fetchKeys, dequeueKeys]
          exact (ih disc rest).cons u
        · cases hf : fetch u with
          | none =>
            have hloop : (crawlLoop fetch bu bd md mu (fuel + 1) disc ((u, d) :: rest)).2 =
                .dequeue u d :: .fetchErr u ::
                  (crawlLoop fetch bu bd md mu fuel disc rest).2 := by
              simp [crawlLoop, hlen, hd, hf]
            rw [hloop]
            simp only [fetchKeys, dequeueKeys]
            exact (ih disc rest).cons₂ u
          | some hrefs =>
            obtain ⟨fresh, heq, _, _, _⟩ :=
              addLinks_spec d (linksFrom bu bd u hrefs) disc rest
            have hloop : (crawlLoop fetch bu bd md mu (fuel + 1) disc ((u, d) :: rest)).2 =
                .dequeue u d :: .fetchOk u :: .sleep ::
                  (crawlLoop fetch bu bd md mu fuel (disc ++ fresh) (rest ++ fresh)).2 := by
              simp [crawlLoop, hlen, hd, hf, heq]
            rw [hloop]
            simp only [fetchKeys, dequeueKeys]
            exact (ih (disc ++ fresh) (rest ++ fresh)).cons₂ u
      · simp [crawlLoop, hlen, fetchKeys, dequeueKeys]

theorem crawlLoop_fetchOk_slept (fetch : String → Option (List String)) (bu bd : String)
    (md mu : Nat) : ∀ (fuel : Nat) (disc tv : List (String × Nat)),
    fetchOkImmediatelySlept (crawlLoop fetch bu bd md mu fuel disc tv).2 = true := by
  intro fuel
  induction fuel with
  | zero =>
    intro disc tv
    simp [crawlLoop, fetchOkImmediatelySlept]
  | succ fuel ih =>
    intro disc tv
    match tv with
    | [] => simp [crawlLoop, fetchOkImmediatelySlept]
    | (u, d) :: rest =>
      by_cases hlen : disc.length < mu * 2
      · by_cases hd : d ≥ md
        · have hloop : (crawlLoop fetch bu bd md mu (fuel + 1) disc ((u, d) :: rest)).2 =
              .dequeue u d :: (crawlLoop fetch bu bd md mu fuel disc rest).2 := by
            simp [crawlLoop, hlen, hd]
          rw [hloop]
          simp only [fetchOkImmediatelySlept]
          exact ih disc rest
        · cases hf : fetch u with
          | none =>
            have hloop : (crawlLoop fetch bu bd md mu (fuel + 1) disc ((u, d) :: rest)).2 =
                .dequeue u d :: .fetchErr u ::
                  (crawlLoop fetch bu bd md mu fuel disc rest).2 := by
              simp [crawlLoop, hlen, hd, hf]
            rw [hloop]
            simp only [fetchOkImmediatelySlept]
            exact ih disc rest
          | some hrefs =>
            obtain ⟨fresh, heq, _, _, _⟩ :=
              addLinks_spec d (linksFrom bu bd u hrefs) disc rest
            have hloop : (crawlLoop fetch bu bd md mu (fuel + 1) disc ((u, d) :: rest)).2 =
                .dequeue u d :: .fetchOk u :: .sleep ::
                  (crawlLoop fetch bu bd md mu fuel (disc ++ fresh) (rest ++ fresh)).2 := by
              simp [crawlLoop, hlen, hd, hf, heq]
            rw [hloop]
            simp only [fetchOkImmediatelySlept]
            rw [ih (disc ++ fresh) (rest ++ fresh)]
            simp
      · simp [crawlLoop, hlen, fetchOkImmediatelySlept]

/-! ### Claim C1: end-to-end discovery scenario -/

/-- Claim C1, counterexample.  On the synthetic site the discovered set
is exactly the three URLs, but it is not the case that each of those
pages is fetched exactly once by the discovery crawl: with
`maxDepth = 1` the entries for `/a` and `/b` are dropped at the depth
check before any fetch, so only the seed page is fetched. -/
theorem claim1_counterexample :
    discover_urls exSite 10 "https://example.test/" none 1 10 =
      ["https://example.test/", "https://example.test/a", "https://example.test/b"] ∧
    ¬ (∀ u ∈ ["https://example.test/", "https://example.test/a", "https://example.test/b"],
        fetchCount (discoverTrace exSite 10 "https://example.test/" 1 10) u = 1) := by
  decide

/-- Claim C1, amended: for the end-to-end scenario with seed
`https://example.test/` and the synthetic site of pages `/`, `/a`, `/b`
each linking to the other two, run with `maxDepth = 1` and
`maxURLs = 10`, URL discovery returns exactly the three URLs (each
listed once, so stage 2 later processes each exactly once), and during
discovery no page is fetched more than once: the seed is fetched
exactly once and `/a`, `/b` are not fetched at all, their frontier
entries being dropped at the depth bound. -/
theorem claim1_thm :
    discover_urls exSite 10 "https://example.test/" none 1 10 =
      ["https://example.test/", "https://example.test/a", "https://example.test/b"] ∧
    (discover_urls exSite 10 "https://example.test/" none 1 10).Nodup ∧
    fetchCount (discoverTrace exSite 10 "https://example.test/" 1 10)
      "https://example.test/" = 1 ∧
    fetchCount (discoverTrace exSite 10 "https://example.test/" 1 10)
      "https://example.test/a" = 0 ∧
    fetchCount (discoverTrace exSite 10 "https://example.test/" 1 10)
      "https://example.test/b" = 0 := by
  decide

/-! ### Claim C2: FIFO frontier, at-most-once fetch -/

/-- Claim C2: during one discovery crawl the frontier behaves as a FIFO
queue, so dequeued entries appear in breadth-first level order — the
dequeued depths are monotonically nondecreasing — and no URL key is
dequeued or fetched more than once, whatever the site graph, seed,
depth bound, URL cap and fuel. -/
theorem claim2_thm (fetch : String → Option (List String)) (fuel md mu : Nat)
    (seed : String) :
    (dequeueKeys (discoverTrace fetch fuel seed md mu)).Nodup ∧
    (fetchKeys (discoverTrace fetch fuel seed md mu)).Nodup ∧
    List.Chain' (· ≤ ·) (dequeueDepths (discoverTrace fetch fuel seed md mu)) := by
  have hnd := crawlLoop_dequeue_nodup fetch (schemeOf seed ++ "://" ++ netlocOf seed)
    (netlocOf seed) md mu fuel [(seed, 0)] [(seed, 0)] (by simp) (by simp)
  have hsub := crawlLoop_fetch_sublist fetch (schemeOf seed ++ "://" ++ netlocOf seed)
    (netlocOf seed) md mu fuel [(seed, 0)] [(seed, 0)]
  have hch := crawlLoop_depths_chain fetch (schemeOf seed ++ "://" ++ netlocOf seed)
    (netlocOf seed) md mu fuel [(seed, 0)] [(seed, 0)] 0 ⟨1, 0, by simp⟩
  exact ⟨hnd.1, List.Nodup.sublist hsub hnd.1, hch.tail⟩

/-! ### Claim C8: politeness delay -/

/-- Claim C8, counterexample.  The claim states a politeness delay is
awaited after every processed entry independently of fetch outcome.
On a site whose `/bad` page fails to fetch, the trace shows the loop
`continue`s straight from the failed fetch to the next dequeue with no
sleep between them. -/
theorem claim8_counterexample :
    discoverTrace exSiteFlaky 10 "https://example.test/" 2 10 =
      [.dequeue "https://example.test/" 0, .fetchOk "https://example.test/", .sleep,
       .dequeue "https://example.test/bad" 1, .fetchErr "https://example.test/bad",
       .dequeue "https://example.test/good" 1, .fetchOk "https://example.test/good",
       .sleep] ∧
    sleepBetweenDequeues (discoverTrace exSiteFlaky 10 "https://example.test/" 2 10) =
      false := by
  decide

/-- Claim C8, amended: the politeness delay is awaited after every
successfully fetched frontier entry, immediately after its links are
recorded and before anything further happens (in particular before the
next dequeue); entries dropped at the depth bound and entries whose
fetch fails are followed by the next dequeue with no delay. -/
theorem claim8_thm (fetch : String → Option (List String)) (fuel md mu : Nat)
    (seed : String) :
    fetchOkImmediatelySlept (discoverTrace fetch fuel seed md mu) = true :=
  crawlLoop_fetchOk_slept fetch (schemeOf seed ++ "://" ++ netlocOf seed)
    (netlocOf seed) md mu fuel [(seed, 0)] [(seed, 0)]

/-! ### Claim C10: discovery output order -/

/-- Claim C10, counterexample.  The claim states the seed URL is the
first element whenever no substring filter excludes it; with
`maxUrls = 0` the post-loop truncation empties the list even though no
filter is configured, so there is no first element. -/
theorem claim10_counterexample :
    (discover_urls exSite 10 "https://example.test/" none 1 0).head? = none := by
  decide

/-- Claim C10, amended: URL discovery returns an order-preserving
selection (substring filter, then truncation to `maxURLs`) of the
discovered keys in first-discovery order, and the seed URL is the
first element whenever `maxURLs ≥ 1` and no substring filter excludes
the seed.  This deterministic list becomes the processing order of
stage 2. -/
theorem claim10_thm (fetch : String → Option (List String)) (fuel md mu : Nat)
    (seed : String) (fp : Option String) (hmu : 0 < mu)
    (hfp : fp = none ∨
      ∃ p, fp = some p ∧ strContains (lowerStr seed) (lowerStr p) = true) :
    (discover_urls fetch fuel seed fp md mu).head? = some seed ∧
    (discover_urls fetch fuel seed fp md mu).Sublist
      ((crawlLoop fetch (schemeOf seed ++ "://" ++ netlocOf seed) (netlocOf seed) md mu
        fuel [(seed, 0)] [(seed, 0)]).1.map Prod.fst) := by
  obtain ⟨ext, hext⟩ := crawlLoop_disc_extends fetch
    (schemeOf seed ++ "://" ++ netlocOf seed) (netlocOf seed) md mu fuel
    [(seed, 0)] [(seed, 0)]
  obtain ⟨m, rfl⟩ : ∃ m, mu = m + 1 := ⟨mu - 1, (Nat.succ_pred_eq_of_pos hmu).symm⟩
  have hkeys : ((crawlLoop fetch (schemeOf seed ++ "://" ++ netlocOf seed)
      (netlocOf seed) md (m + 1) fuel [(seed, 0)] [(seed, 0)]).1).map Prod.fst =
      seed :: ext.map Prod.fst := by
    rw [hext]
    simp
  rcases hfp with rfl | ⟨p, rfl, hp⟩
  · simp only [discover_urls, hkeys, List.take_succ_cons]
    exact ⟨rfl, List.Sublist.cons₂ seed (List.take_sublist m _)⟩
  · simp only [discover_urls, hkeys, List.filter_cons, hp, if_pos, List.take_succ_cons]
    exact ⟨rfl, List.Sublist.cons₂ seed
      ((List.take_sublist m _).trans (List.filter_sublist _))⟩

/-- Claim C10, witness for the amended theorem on the synthetic site
with no filter and `maxURLs = 10`. -/
theorem claim10_witness :
    (discover_urls exSite 10 "https://example.test/" none 1 10).head? =
      some "https://example.test/" ∧
    (discover_urls exSite 10 "https://example.test/" none 1 10).Sublist
      ((crawlLoop exSite
        (schemeOf "https://example.test/" ++ "://" ++ netlocOf "https://example.test/")
        (netlocOf "https://example.test/") 1 10 10
        [("https://example.test/", 0)] [("https://example.test/", 0)]).1.map Prod.fst) :=
  claim10_thm exSite 10 1 10 "https://example.test/" none (by decide) (Or.inl rfl)

/-! ### Extractor deduplication lemmas -/

theorem nodup_append_single {l : List String} {a : String} (h : l.Nodup) (ha : a ∉ l) :
    (l ++ [a]).Nodup := by
  rw [List.nodup_append]
  refine ⟨h, List.nodup_singleton a, ?_⟩
  intro x hx hxa
  rw [List.mem_singleton] at hxa
  exact ha (hxa ▸ hx)

theorem liStep_nodup (acc : List String × List String) (c : HNode)
    (h : acc.1.Nodup) : (liStep acc c).1.Nodup := by
  unfold liStep
  split
  · dsimp only
    split
    case isTrue hcond => exact nodup_append_single h hcond.2
    case isFalse => exact h
  · exact h

theorem liFold_nodup : ∀ (ch : List HNode) (acc : List String × List String),
    acc.1.Nodup → (ch.foldl liStep acc).1.Nodup := by
  intro ch
  induction ch with
  | nil => intro acc h; simpa
  | cons c cs ih =>
    intro acc h
    exact ih (liStep acc c) (liStep_nodup acc c h)

theorem processElement_nodup (e : HNode) (st : List String × List ContentBlock)
    (h : st.1.Nodup) : (processElement st e).1.Nodup := by
  cases e with
  | textNode s => simpa [processElement] using h
  | elem tag cl a ch =>
    dsimp only [processElement]
    split_ifs <;>
      first
        | exact h
        | exact liFold_nodup ch (st.1, []) h
        | exact nodup_append_single h (by tauto)

theorem classifyRun_nodup (root : HNode) : (classifyRun root).1.Nodup := by
  suffices hgen : ∀ (es : List HNode) (st : List String × List ContentBlock),
      st.1.Nodup → (es.foldl processElement st).1.Nodup by
    exact hgen (descAll root) ([], []) (by simp)
  intro es
  induction es with
  | nil => intro st h; simpa
  | cons e es ih =>
    intro st h
    exact ih (processElement st e) (processElement_nodup e st h)

/-! ### Claim C6: global per-page deduplication -/

/-- Claim C6, counterexample.  The claim states that once a text value
has been emitted in any content block of a page, no later block with
that exact text is emitted for the same page.  A body with no
classifiable elements falls back to the line-split path (lines
547-559), which performs no deduplication: a text repeating the same
long line yields the same paragraph twice. -/
theorem claim6_counterexample :
    (extract_page_content (.elem "html" [] [] [.elem "body" [] []
      [.textNode
        "This sentence is definitely longer than thirty characters.\nThis sentence is definitely longer than thirty characters."]])
      "u").sections =
      [.paragraph "This sentence is definitely longer than thirty characters.",
       .paragraph "This sentence is definitely longer than thirty characters."] := by
  decide

/-- Claim C6, amended: within the single-pass classification,
deduplication is global per page and across block types, keyed on the
extracted (pre-truncation) text: the `processed_texts` record never
acquires a duplicate, so no two emitted blocks share the same key text
— in particular a paragraph whose text appears both inside a `div`
wrapper and inside a nested `p` is emitted exactly once.  (Two
emissions can still display the same text when a code block longer
than 1000 characters is truncated, since its key is the untruncated
text, and the zero-block line-split fallback deduplicates nothing.) -/
theorem claim6_thm :
    (∀ root : HNode, (classifyRun root).1.Nodup) ∧
    (extract_page_content (.elem "html" [] [] [.elem "body" [] []
      [.elem "div" [] []
        [.textNode "A wrapper text that is longer than thirty characters total.",
         .elem "span" [] [] [.elem "p" [] []
           [.textNode "A wrapper text that is longer than thirty characters total."]]]]])
      "u").sections =
      [.paragraph "A wrapper text that is longer than thirty characters total."] :=
  ⟨classifyRun_nodup, by decide⟩

/-! ### Claim C9: heading and paragraph emission conditions -/

/-- Claim C9, counterexample.  The claim states a heading-like node is
emitted whenever its text is non-empty and not previously emitted.
The code additionally requires `len(text) > 1` (line 461), so the
one-character heading `X` — non-empty and never emitted before — is
not emitted. -/
theorem claim9_counterexample :
    getTextSep " " (HNode.elem "h2" [] [] [.textNode "X"]) = "X" ∧
    ("X" : String) ≠ "" ∧
    processElement ([], []) (.elem "h2" [] [] [.textNode "X"]) = ([], []) := by
  decide

/-- Claim C9, amended: during classification a heading-like node is
emitted as a Heading block exactly when its text has length greater
than 1 and was not previously emitted, and a paragraph-like node is
emitted as a Paragraph block exactly when its text has length greater
than 15 and was not previously emitted. -/
theorem claim9_thm (st : List String × List ContentBlock) (cl : List String)
    (a : List (String × String)) (ch : List HNode) :
    (∀ tag ∈ headingTags,
      processElement st (.elem tag cl a ch) =
        (if (getTextSep " " (HNode.elem tag cl a ch)).length > 1 ∧
            getTextSep " " (HNode.elem tag cl a ch) ∉ st.1 then
          (st.1 ++ [getTextSep " " (HNode.elem tag cl a ch)],
           st.2 ++ [.heading (headingLevel tag) (getTextSep " " (HNode.elem tag cl a ch))])
        else st)) ∧
    (processElement st (.elem "p" cl a ch) =
      (if (getTextSep " " (HNode.elem "p" cl a ch)).length > 15 ∧
          getTextSep " " (HNode.elem "p" cl a ch) ∉ st.1 then
        (st.1 ++ [getTextSep " " (HNode.elem "p" cl a ch)],
         st.2 ++ [.paragraph (getTextSep " " (HNode.elem "p" cl a ch))])
      else st)) := by
  constructor
  · intro tag htag
    dsimp only [processElement]
    rw [if_pos htag]
    refine if_congr ?_ rfl rfl
    constructor
    · rintro ⟨h1, h2, h3⟩
      exact ⟨h3, h2⟩
    · rintro ⟨h3, h2⟩
      refine ⟨?_, h2, h3⟩
      intro e
      rw [e] at h3
      exact absurd h3 (by decide)
  · dsimp only [processElement]
    rw [if_neg (by decide), if_pos rfl]
    refine if_congr ?_ rfl rfl
    constructor
    · rintro ⟨h1, h2, h3⟩
      exact ⟨h2, h3⟩
    · rintro ⟨h2, h3⟩
      refine ⟨?_, h2, h3⟩
      intro e
      rw [e] at h2
      exact absurd h2 (by decide)

/-- Claim C9, witness for the amended theorem: a two-character heading
and a 23-character paragraph are emitted from a fresh state. -/
theorem claim9_witness :
    processElement ([], []) (.elem "h2" [] [] [.textNode "Overview"]) =
      (["Overview"], [.heading 2 "Overview"]) ∧
    processElement ([], []) (.elem "p" [] [] [.textNode "just enough length here"]) =
      (["just enough length here"], [.paragraph "just enough length here"]) := by
  constructor
  · exact ((claim9_thm ([], []) [] [] [.textNode "Overview"]).1 "h2" (by decide)).trans
      (by decide)
  · exact ((claim9_thm ([], []) [] [] [.textNode "just enough length here"]).2).trans
      (by decide)

/-! ### Claim C5: TOC ordinal integrity -/

theorem stage2Go_toc_invariant (fetch : String → Option HNode)
    (renderOk : PageContent → Bool) :
    ∀ (urls : List String) (i : Nat) (paths : List (Nat × String))
      (tocs : List (String × Nat)),
    tocs.length = paths.length →
    tocs.map Prod.snd = List.range' 1 paths.length →
    ((stage2Go fetch renderOk i urls paths tocs).2.length =
      (stage2Go fetch renderOk i urls paths tocs).1.length ∧
     (stage2Go fetch renderOk i urls paths tocs).2.map Prod.snd =
      List.range' 1 (stage2Go fetch renderOk i urls paths tocs).1.length) := by
  intro urls
  induction urls with
  | nil =>
    intro i paths tocs hlen hord
    simpa [stage2Go] using ⟨hlen, hord⟩
  | cons u rest ih =>
    intro i paths tocs hlen hord
    cases hf : fetch u with
    | none =>
      simp only [stage2Go, hf]
      exact ih (i + 1) paths tocs hlen hord
    | some soup =>
      by_cases hs : (extract_page_content soup u).sections = []
      · simp only [stage2Go, hf, hs, if_pos]
        exact ih (i + 1) paths tocs hlen hord
      · by_cases hr : renderOk (extract_page_content soup u) = true
        · simp only [stage2Go, hf, hs, if_neg, hr, if_pos, if_true]
          refine ih (i + 1) (paths ++ [(i, u)])
            (tocs ++ [(if (extract_page_content soup u).title = "" then u
              else (extract_page_content soup u).title, paths.length + 1)]) ?_ ?_
          · simp [hlen]
          · rw [List.map_append, hord]
            simp [List.range'_concat, Nat.add_comm]
        · rw [show stage2Go fetch renderOk i (u :: rest) paths tocs =
              stage2Go fetch renderOk (i + 1) rest paths tocs by
            simp only [stage2Go, hf]
            rw [if_neg hs, if_neg hr]]
          exact ih (i + 1) paths tocs hlen hord

/-- Claim C5: the table of contents contains exactly one entry per
successfully rendered page in processing order, with 1-based ordinals
counted over successful pages only (a page that fails to fetch,
extract or render consumes no ordinal), and the final document is the
TOC artifact followed by the page artifacts in that same order, so TOC
entry `i` refers to the `i`-th content artifact after the TOC.  In the
concrete 5-page scenario where page 3 fails to render, the four
ordinals 1,2,3,4 map to pages 1,2,4,5. -/
theorem claim5_thm (fetch : String → Option HNode) (renderOk : PageContent → Bool)
    (urls : List String) :
    (stage2 fetch renderOk urls).2.length = (stage2 fetch renderOk urls).1.length ∧
    (stage2 fetch renderOk urls).2.map Prod.snd =
      List.range' 1 (stage2 fetch renderOk urls).1.length ∧
    merge_pdfs (stage2 fetch renderOk urls).1 (stage2 fetch renderOk urls).2 =
      DocItem.tocPage (stage2 fetch renderOk urls).2 ::
        (stage2 fetch renderOk urls).1.map DocItem.contentPage ∧
    (∀ j : Nat,
      (merge_pdfs (stage2 fetch renderOk urls).1 (stage2 fetch renderOk urls).2)[j + 1]? =
        ((stage2 fetch renderOk urls).1[j]?).map DocItem.contentPage) ∧
    (stage2 fiveFetch failThird fiveUrls).1.map Prod.fst = [1, 2, 4, 5] ∧
    (stage2 fiveFetch failThird fiveUrls).2.map Prod.snd = [1, 2, 3, 4] := by
  obtain ⟨h1, h2⟩ := stage2Go_toc_invariant fetch renderOk urls 1 [] [] rfl (by simp)
  refine ⟨h1, h2, rfl, ?_, by decide, by decide⟩
  intro j
  simp [merge_pdfs]

/-! ### Claim C7: failure isolation and run-level failure -/

/-- Claim C7: a fetch failure never aborts the crawl or the run — the
failed frontier entry contributes no discovered links and the loop
proceeds to the remaining entries, and a stage-2 fetch failure or
per-page render failure only skips that page, leaving the accumulated
artifacts and TOC unchanged — and the run as a whole fails exactly
when zero pages produced an artifact to merge. -/
theorem claim7_thm :
    (∀ (fetch : String → Option (List String)) (bu bd : String) (md mu fuel : Nat)
      (u : String) (d : Nat) (rest disc : List (String × Nat)),
      fetch u = none → d < md → disc.length < mu * 2 →
      crawlLoop fetch bu bd md mu (fuel + 1) disc ((u, d) :: rest) =
        ((crawlLoop fetch bu bd md mu fuel disc rest).1,
         .dequeue u d :: .fetchErr u :: (crawlLoop fetch bu bd md mu fuel disc rest).2)) ∧
    (∀ (fetch : String → Option HNode) (renderOk : PageContent → Bool) (i : Nat)
      (u : String) (rest : List String) (paths : List (Nat × String))
      (tocs : List (String × Nat)),
      fetch u = none →
      stage2Go fetch renderOk i (u :: rest) paths tocs =
        stage2Go fetch renderOk (i + 1) rest paths tocs) ∧
    (∀ (fetch : String → Option HNode) (renderOk : PageContent → Bool) (i : Nat)
      (u : String) (rest : List String) (paths : List (Nat × String))
      (tocs : List (String × Nat)) (soup : HNode),
      fetch u = some soup → renderOk (extract_page_content soup u) = false →
      stage2Go fetch renderOk i (u :: rest) paths tocs =
        stage2Go fetch renderOk (i + 1) rest paths tocs) ∧
    (∀ (fetch : String → Option HNode) (renderOk : PageContent → Bool)
      (urls : List String),
      runFails fetch renderOk urls = true ↔ (stage2 fetch renderOk urls).1 = []) := by
  refine ⟨?_, ?_, ?_, ?_⟩
  · intro fetch bu bd md mu fuel u d rest disc hf hd hlen
    have hge : ¬ d ≥ md := by omega
    simp [crawlLoop, hlen, hge, hf]
  · intro fetch renderOk i u rest paths tocs hf
    simp [stage2Go, hf]
  · intro fetch renderOk i u rest paths tocs soup hf hr
    by_cases hs : (extract_page_content soup u).sections = []
    · simp [stage2Go, hf, hs]
    · simp only [stage2Go, hf]
      rw [if_neg hs, if_neg (by simp [hr])]
  · intro fetch renderOk urls
    cases urls with
    | nil => simp [runFails, stage2, stage2Go]
    | cons u rest => simp [runFails, stage2, List.isEmpty_iff]

/-- Claim C7, witness: a failing fetch in the crawl and in stage 2, a
failing render, and the run-level failure equivalence, each at a
concrete input. -/
theorem claim7_witness :
    crawlLoop (fun _ => none) "https://b.test" "b.test" 1 1 3 [("x", 0)] [("x", 0)] =
      ([("x", 0)], [.dequeue "x" 0, .fetchErr "x"]) ∧
    stage2Go (fun _ => none) (fun _ => true) 1 ["u"] [] [] = ([], []) ∧
    stage2Go fiveFetch failThird 1 ["https://s.test/3"] [] [] = ([], []) ∧
    (runFails (fun _ => none) (fun _ => true) ["u"] = true ↔
      (stage2 (fun _ => none) (fun _ => true) ["u"]).1 = []) := by
  refine ⟨?_, ?_, ?_, ?_⟩
  · exact (claim7_thm.1 (fun _ => none) "https://b.test" "b.test" 1 1 2 "x" 0 []
      [("x", 0)] rfl (by decide) (by decide)).trans (by decide)
  · exact claim7_thm.2.1 (fun _ => none) (fun _ => true) 1 "u" [] [] [] rfl
  · exact claim7_thm.2.2.1 fiveFetch failThird 1 "https://s.test/3" [] [] []
      (pageDoc "Content of a page with a sufficiently long paragraph.") rfl (by decide)
  · exact claim7_thm.2.2.2 (fun _ => none) (fun _ => true) ["u"]
